import Mathlib

/-
  Verification of the 2D infinite amortized noise generator
  (InfiniteAmortizedNoise2D.cpp, TerrainGenerator.cpp, ExponentialHash.cpp,
  Common.h) by Ian Parberry.

  Modelling conventions:
  * float arithmetic is idealized as exact rational arithmetic (ℚ); the
    transcendental pieces (logarithms in ExponentialHash.cpp) are idealized
    over ℝ with Real.log;
  * the gradient direction at a lattice point, (cosf((float)h(x,y)),
    sinf((float)h(x,y))) in the source, is abstracted as a function
    dir : ℤ → ℤ → ℚ × ℚ; the classic variant satisfies
    (dir x y).1 ^ 2 + (dir x y).2 ^ 2 = 1 (cos² + sin² = 1) and the terrain
    variant (magnitude in (0,1]) satisfies ≤ 1;
  * the caller-owned n × n buffer float** cell is a total function
    ℕ → ℕ → ℚ; a loop writing disjoint entries becomes the functional
    update describing its final state;
  * machine integers are ℕ / ℤ (loop counters and granularities never
    overflow in the source's intended ranges).
-/

namespace AmortizedNoise

/-- Quintic spline s_curve2 from Common.h:
t * t * t * (10.0f + 3.0f * t * (2.0f*t - 5.0f)). -/
def s_curve2 (t : ℚ) : ℚ := t * t * t * (10 + 3 * t * (2 * t - 5))

/-- Linear interpolation macro lerp(t, a, b) = (a + t*(b - a)) from Common.h. -/
def lerp (t a b : ℚ) : ℚ := a + t * (b - a)

/-- CInfiniteAmortizedNoise2D::FillUp: t[0] = 0; t[i] = t[i-1] + s/n.
The value of table entry i, defined for every i (the source only reads
entries below n). -/
def FillUp (s : ℚ) (n : ℕ) : ℕ → ℚ
  | 0 => 0
  | i + 1 => FillUp s n i + s / n

/-- Value of the k-th entry of FillDn counted downward from the top:
entry n-1 holds -s/n and each step down adds -s/n again. -/
def FillDnAux (d : ℚ) : ℕ → ℚ
  | 0 => d
  | k + 1 => FillDnAux d k + d

/-- CInfiniteAmortizedNoise2D::FillDn: t[n-1] = -s/n; t[i] = t[i+1] - s/n.
Entry i is n-1-i steps below the top entry. -/
def FillDn (s : ℚ) (n : ℕ) (i : ℕ) : ℚ := FillDnAux (-s / n) (n - 1 - i)

/-- CInfiniteAmortizedNoise2D::initSplineTable: spline[i] = s_curve2(i/n). -/
def splineTable (n : ℕ) (i : ℕ) : ℚ := s_curve2 ((i : ℚ) / n)

section EdgeTables

variable (dir : ℤ → ℤ → ℚ × ℚ)

/-- Edge table uax of initEdgeTables: FillUp(uax, cos(b00), n) where b00 is
the hash of corner (x0, y0); dir abstracts (cos b, sin b). -/
def uax (x0 y0 : ℤ) (n : ℕ) : ℕ → ℚ := FillUp (dir x0 y0).1 n

/-- Edge table vax of initEdgeTables: FillDn(vax, cos(b01), n), b01 at (x0, y0+1). -/
def vax (x0 y0 : ℤ) (n : ℕ) : ℕ → ℚ := FillDn (dir x0 (y0 + 1)).1 n

/-- Edge table ubx of initEdgeTables: FillUp(ubx, cos(b10), n), b10 at (x0+1, y0). -/
def ubx (x0 y0 : ℤ) (n : ℕ) : ℕ → ℚ := FillUp (dir (x0 + 1) y0).1 n

/-- Edge table vbx of initEdgeTables: FillDn(vbx, cos(b11), n), b11 at (x0+1, y0+1). -/
def vbx (x0 y0 : ℤ) (n : ℕ) : ℕ → ℚ := FillDn (dir (x0 + 1) (y0 + 1)).1 n

/-- Edge table uay of initEdgeTables: FillUp(uay, sin(b00), n). -/
def uay (x0 y0 : ℤ) (n : ℕ) : ℕ → ℚ := FillUp (dir x0 y0).2 n

/-- Edge table vay of initEdgeTables: FillUp(vay, sin(b01), n). -/
def vay (x0 y0 : ℤ) (n : ℕ) : ℕ → ℚ := FillUp (dir x0 (y0 + 1)).2 n

/-- Edge table uby of initEdgeTables: FillDn(uby, sin(b10), n). -/
def uby (x0 y0 : ℤ) (n : ℕ) : ℕ → ℚ := FillDn (dir (x0 + 1) y0).2 n

/-- Edge table vby of initEdgeTables: FillDn(vby, sin(b11), n). -/
def vby (x0 y0 : ℤ) (n : ℕ) : ℕ → ℚ := FillDn (dir (x0 + 1) (y0 + 1)).2 n

/-- CInfiniteAmortizedNoise2D::getNoise(i, j): one point of one octave,
computed from the edge tables of the cell with top-left corner (x0, y0)
and the spline table for granularity n. -/
def getNoisePt (x0 y0 : ℤ) (n : ℕ) (i j : ℕ) : ℚ :=
  let u1 := uax dir x0 y0 n j + uay dir x0 y0 n i
  let v1 := vax dir x0 y0 n j + vay dir x0 y0 n i
  let a := lerp (splineTable n j) u1 v1
  let u2 := ubx dir x0 y0 n j + uby dir x0 y0 n i
  let v2 := vbx dir x0 y0 n j + vby dir x0 y0 n i
  let b := lerp (splineTable n j) u2 v2
  lerp (splineTable n i) a b

/-- CInfiniteAmortizedNoise2D::getNoise(n, i0, j0, cell): the buffer state
after the copy loop cell[i0+i][j0+j] = getNoise(i, j) for 0 ≤ i, j < n,
for the subcell whose edge tables come from cell corner (x0, y0). -/
def getNoiseCell (x0 y0 : ℤ) (n i0 j0 : ℕ) (cell : ℕ → ℕ → ℚ) : ℕ → ℕ → ℚ :=
  fun a b =>
    if i0 ≤ a ∧ a < i0 + n ∧ j0 ≤ b ∧ b < j0 + n then
      getNoisePt dir x0 y0 n (a - i0) (b - j0)
    else cell a b

/-- CInfiniteAmortizedNoise2D::addNoise(n, i0, j0, scale, cell): the buffer
state after the accumulate loop cell[i0+i][j0+j] += scale * getNoise(i, j). -/
def addNoiseCell (x0 y0 : ℤ) (n i0 j0 : ℕ) (scale : ℚ) (cell : ℕ → ℕ → ℚ) :
    ℕ → ℕ → ℚ :=
  fun a b =>
    if i0 ≤ a ∧ a < i0 + n ∧ j0 ≤ b ∧ b < j0 + n then
      cell a b + scale * getNoisePt dir x0 y0 n (a - i0) (b - j0)
    else cell a b

/-- Inner subcell loop of the first generated octave of generate: for j0 from
0 to jc-1, initEdgeTables(x + i0, y + j0, n); getNoise(n, i0*n, j0*n, cell). -/
def firstOctaveJ (x y : ℤ) (n : ℕ) (i0 : ℕ) : ℕ → (ℕ → ℕ → ℚ) → (ℕ → ℕ → ℚ)
  | 0, cell => cell
  | j0 + 1, cell =>
      getNoiseCell dir (x + i0) (y + j0) n (i0 * n) (j0 * n)
        (firstOctaveJ x y n i0 j0 cell)

/-- Outer subcell loop of the first generated octave of generate: for i0 from
0 to ic-1, run the inner loop over r subcells. -/
def firstOctaveI (x y : ℤ) (n r : ℕ) : ℕ → (ℕ → ℕ → ℚ) → (ℕ → ℕ → ℚ)
  | 0, cell => cell
  | i0 + 1, cell => firstOctaveJ dir x y n i0 r (firstOctaveI x y n r i0 cell)

/-- Inner subcell loop of a subsequent octave of generate: for j0 from 0
to jc-1, initEdgeTables(x + i0, y + j0, n); addNoise(n, i0*n, j0*n, scale, cell). -/
def addOctaveJ (x y : ℤ) (n : ℕ) (i0 : ℕ) (scale : ℚ) :
    ℕ → (ℕ → ℕ → ℚ) → (ℕ → ℕ → ℚ)
  | 0, cell => cell
  | j0 + 1, cell =>
      addNoiseCell dir (x + i0) (y + j0) n (i0 * n) (j0 * n) scale
        (addOctaveJ x y n i0 scale j0 cell)

/-- Outer subcell loop of a subsequent octave of generate. -/
def addOctaveI (x y : ℤ) (n : ℕ) (scale : ℚ) (r : ℕ) :
    ℕ → (ℕ → ℕ → ℚ) → (ℕ → ℕ → ℚ)
  | 0, cell => cell
  | i0 + 1, cell => addOctaveJ dir x y n i0 scale r (addOctaveI x y n scale r i0 cell)

end EdgeTables

/-- The mutable state of generate between octaves: origin (x, y),
granularity n, subcell count per side r, accumulation scale, and the
caller-owned buffer. -/
@[ext]
structure St where
  x : ℤ
  y : ℤ
  n : ℕ
  r : ℕ
  scale : ℚ
  cell : ℕ → ℕ → ℚ

section Orchestrator

variable (dir : ℤ → ℤ → ℚ × ℚ)

/-- Body of the subsequent-octave loop of generate:
n /= 2; r += r; x += x; y += y; scale *= 0.5f; initSplineTable(n);
then the subcell loops with addNoise. -/
def octBody (st : St) : St :=
  let n := st.n / 2
  let r := st.r + st.r
  let x := st.x + st.x
  let y := st.y + st.y
  let scale := st.scale * (1 / 2)
  { x := x, y := y, n := n, r := r, scale := scale
    cell := addOctaveI dir x y n scale r r st.cell }

/-- The subsequent-octave loop of generate, k iterations remaining:
for(int k = m0; k < m1 && n >= 2; k++){ ... }. The guard 2 ≤ n is tested on
the granularity before the body halves it. -/
def octLoop : ℕ → St → St
  | 0, st => st
  | k + 1, st => if 2 ≤ st.n then octLoop k (octBody dir st) else st

end Orchestrator

/-- The octave-skipping loop of generate: for(int i = 1; i < m0; i++){ n /= 2; r += r; },
as a function of the iteration count on the pair (n, r). -/
def skipLoop : ℕ → ℕ × ℕ → ℕ × ℕ
  | 0, p => p
  | k + 1, p => skipLoop k (p.1 / 2, p.2 + p.2)

/-- CInfiniteAmortizedNoise2D::generate(x, y, m0, m1, n, cell). Returns the
renormalization factor actually returned by the source (1.0f on the
degenerate fail-and-bail path, sqrt(2)/(2 - scale) otherwise) together with
the final buffer state. -/
noncomputable def generate (dir : ℤ → ℤ → ℚ × ℚ) (x y : ℤ) (m0 m1 : ℤ) (n : ℕ)
    (cell : ℕ → ℕ → ℚ) : ℝ × (ℕ → ℕ → ℚ) :=
  let p := skipLoop (m0 - 1).toNat (n, 1)
  if p.1 < 2 then ((1 : ℝ), cell)
  else
    let c1 := firstOctaveI dir x y p.1 p.2 p.2 cell
    let st := octLoop dir (m1 - m0).toNat { x := x, y := y, n := p.1, r := p.2, scale := 1, cell := c1 }
    (Real.sqrt 2 / (2 - (st.scale : ℝ)), st.cell)

/-- The granularities at which the subsequent-octave loop composites an
octave into the buffer, in execution order; mirrors the control flow of
octLoop, which depends only on n and the remaining iteration count. -/
def octTrace : ℕ → ℕ → List ℕ
  | 0, _ => []
  | k + 1, n => if 2 ≤ n then n / 2 :: octTrace k (n / 2) else []

/-- The granularities of all octaves composited by generate after the first
generated octave (the first generated octave itself runs at the post-skip
granularity). -/
def generateTrace (m0 m1 : ℤ) (n : ℕ) : List ℕ :=
  let p := skipLoop (m0 - 1).toNat (n, 1)
  if p.1 < 2 then [] else octTrace (m1 - m0).toNat p.1

/-- UniformHash from ExponentialHash.cpp: ((float)x + 1.0f)/((float)max + 2.0f). -/
noncomputable def UniformHash (x mx : ℕ) : ℝ := ((x : ℝ) + 1) / ((mx : ℝ) + 2)

/-- The two-argument ExpHash overload from ExponentialHash.cpp:
-scale * log(0.5f*(float)x + 1.0f) + 1.0f with
scale = 1/log(0.5f*((float)max + 2.0f)). -/
noncomputable def ExpHashBase (x mx : ℕ) : ℝ :=
  -(1 / Real.log ((1 / 2) * ((mx : ℝ) + 2))) * Real.log ((1 / 2) * (x : ℝ) + 1) + 1

/-- The four-argument ExpHash overload from ExponentialHash.cpp:
omega = clip(omega, 0.0f, 1.0f);
return (UniformHash(y, m) < omega) ? UniformHash(x, m) : ExpHash(x, m);
where clip(x,a,b) = min(max(x, a), b). -/
noncomputable def ExpHash (x y mx : ℕ) (omega : ℝ) : ℝ :=
  let om := min (max omega 0) 1
  if UniformHash y mx < om then UniformHash x mx else ExpHashBase x mx

section Corners

variable (h : ℤ → ℤ → ℕ)

/-- Corner hash b00 = h(x0, y0) of CInfiniteAmortizedNoise2D::initEdgeTables;
h abstracts MurmurHash3 keyed by the generator's fixed seed. -/
def cornerB00 (x0 y0 : ℤ) : ℕ := h x0 y0

/-- Corner hash b01 = h(x0, y0+1) of initEdgeTables. -/
def cornerB01 (x0 y0 : ℤ) : ℕ := h x0 (y0 + 1)

/-- Corner hash b10 = h(x0+1, y0) of initEdgeTables. -/
def cornerB10 (x0 y0 : ℤ) : ℕ := h (x0 + 1) y0

/-- Corner hash b11 = h(x0+1, y0+1) of initEdgeTables. -/
def cornerB11 (x0 y0 : ℤ) : ℕ := h (x0 + 1) (y0 + 1)

end Corners

section TerrainCorners

variable (hs : ℕ → ℤ → ℤ → ℕ) (seed1 seed2 : ℕ) (omega : ℝ)

/-- Corner magnitude m00 of CTerrainGenerator::initEdgeTables:
ExpHash(h(x0, y0, seed1), h(x0, y0, seed2), 0xFFFFFFFF, omega), where
hs abstracts the three-argument seeded MurmurHash of TerrainGenerator.cpp. -/
noncomputable def cornerM00 (x0 y0 : ℤ) : ℝ :=
  ExpHash (hs seed1 x0 y0) (hs seed2 x0 y0) 4294967295 omega

/-- Corner magnitude m01 of CTerrainGenerator::initEdgeTables, at (x0, y0+1). -/
noncomputable def cornerM01 (x0 y0 : ℤ) : ℝ :=
  ExpHash (hs seed1 x0 (y0 + 1)) (hs seed2 x0 (y0 + 1)) 4294967295 omega

/-- Corner magnitude m10 of CTerrainGenerator::initEdgeTables, at (x0+1, y0). -/
noncomputable def cornerM10 (x0 y0 : ℤ) : ℝ :=
  ExpHash (hs seed1 (x0 + 1) y0) (hs seed2 (x0 + 1) y0) 4294967295 omega

/-- Corner magnitude m11 of CTerrainGenerator::initEdgeTables, at (x0+1, y0+1). -/
noncomputable def cornerM11 (x0 y0 : ℤ) : ℝ :=
  ExpHash (hs seed1 (x0 + 1) (y0 + 1)) (hs seed2 (x0 + 1) (y0 + 1)) 4294967295 omega

end TerrainCorners

/-! Closed forms for the edge tables. -/

lemma FillUp_eq (s : ℚ) (n : ℕ) (i : ℕ) : FillUp s n i = (i : ℚ) * s / n := by
  induction i with
  | zero => simp [FillUp]
  | succ i ih =>
      rw [FillUp, ih]
      push_cast
      ring

lemma FillDnAux_eq (d : ℚ) (k : ℕ) : FillDnAux d k = ((k : ℚ) + 1) * d := by
  induction k with
  | zero => simp [FillDnAux]
  | succ k ih =>
      rw [FillDnAux, ih]
      push_cast
      ring

lemma FillDn_eq (s : ℚ) {n : ℕ} {i : ℕ} (hi : i < n) :
    FillDn s n i = -(((n - i : ℕ) : ℚ) * s / n) := by
  rw [FillDn, FillDnAux_eq]
  have hcast : ((n - 1 - i : ℕ) : ℚ) + 1 = ((n - i : ℕ) : ℚ) := by
    have h1 : n - 1 - i + 1 = n - i := by omega
    rw [← h1]
    push_cast
    ring
  rw [hcast]
  ring

/-- Closed form for one point of one octave: the quintic-spline-weighted
bilinear blend of the four corner-gradient dot products with the
displacement from each corner, exactly as in classic Perlin noise. -/
lemma getNoisePt_eq (dir : ℤ → ℤ → ℚ × ℚ) (x0 y0 : ℤ) {n i j : ℕ}
    (hi : i < n) (hj : j < n) :
    getNoisePt dir x0 y0 n i j =
      lerp (s_curve2 ((i : ℚ) / n))
        (lerp (s_curve2 ((j : ℚ) / n))
          (((j : ℚ) / n) * (dir x0 y0).1 + ((i : ℚ) / n) * (dir x0 y0).2)
          ((((j : ℚ) / n) - 1) * (dir x0 (y0 + 1)).1 +
            ((i : ℚ) / n) * (dir x0 (y0 + 1)).2))
        (lerp (s_curve2 ((j : ℚ) / n))
          (((j : ℚ) / n) * (dir (x0 + 1) y0).1 +
            (((i : ℚ) / n) - 1) * (dir (x0 + 1) y0).2)
          ((((j : ℚ) / n) - 1) * (dir (x0 + 1) (y0 + 1)).1 +
            (((i : ℚ) / n) - 1) * (dir (x0 + 1) (y0 + 1)).2)) := by
  have hn0 : 0 < n := lt_of_le_of_lt (Nat.zero_le i) hi
  have hn : ((n : ℚ)) ≠ 0 := by
    exact_mod_cast hn0.ne'
  simp only [getNoisePt, uax, uay, vax, vay, ubx, uby, vbx, vby, splineTable]
  rw [FillUp_eq, FillUp_eq, FillUp_eq, FillUp_eq, FillDn_eq _ hj, FillDn_eq _ hj,
    FillDn_eq _ hi, FillDn_eq _ hi, Nat.cast_sub hj.le, Nat.cast_sub hi.le]
  simp only [lerp]
  field_simp
  ring

/-- The value one full octave sweep writes (or scales and adds) at buffer
position (a, b): the subcell containing (a, b) is (a/n, b/n), and the point
offset inside it is (a%n, b%n). -/
def octaveField (dir : ℤ → ℤ → ℚ × ℚ) (x y : ℤ) (n : ℕ) (a b : ℕ) : ℚ :=
  getNoisePt dir (x + (a / n : ℕ)) (y + (b / n : ℕ)) n (a % n) (b % n)

/-! Pointwise characterization of the subcell sweep loops. -/

lemma firstOctaveJ_apply (dir : ℤ → ℤ → ℚ × ℚ) (x y : ℤ) {n : ℕ}
    (i0 : ℕ) (jc : ℕ) (cell : ℕ → ℕ → ℚ) (a b : ℕ) :
    firstOctaveJ dir x y n i0 jc cell a b =
      if i0 * n ≤ a ∧ a < i0 * n + n ∧ b < jc * n then
        getNoisePt dir (x + i0) (y + (b / n : ℕ)) n (a - i0 * n) (b % n)
      else cell a b := by
  induction jc generalizing cell with
  | zero => simp [firstOctaveJ]
  | succ jc ih =>
      rw [firstOctaveJ]
      simp only [getNoiseCell]
      by_cases hw : i0 * n ≤ a ∧ a < i0 * n + n ∧ jc * n ≤ b ∧ b < jc * n + n
      · rw [if_pos hw]
        have hdiv : b / n = jc :=
          Nat.div_eq_of_lt_le hw.2.2.1 (by rw [Nat.succ_mul]; omega)
        have hm := Nat.mod_add_div b n
        rw [hdiv, Nat.mul_comm n jc] at hm
        have hmod : b % n = b - jc * n := by omega
        rw [if_pos (show i0 * n ≤ a ∧ a < i0 * n + n ∧ b < (jc + 1) * n by
          rw [Nat.add_mul]; omega)]
        rw [hdiv, hmod]
      · rw [if_neg hw, ih]
        by_cases hb : i0 * n ≤ a ∧ a < i0 * n + n ∧ b < jc * n
        · rw [if_pos hb, if_pos (show i0 * n ≤ a ∧ a < i0 * n + n ∧ b < (jc + 1) * n by
            rw [Nat.add_mul]; omega)]
        · rw [if_neg hb, if_neg (show ¬(i0 * n ≤ a ∧ a < i0 * n + n ∧ b < (jc + 1) * n) by
            rw [Nat.add_mul]; omega)]

lemma firstOctaveI_apply (dir : ℤ → ℤ → ℚ × ℚ) (x y : ℤ) {n : ℕ} (r : ℕ)
    (ic : ℕ) (cell : ℕ → ℕ → ℚ) (a b : ℕ) :
    firstOctaveI dir x y n r ic cell a b =
      if a < ic * n ∧ b < r * n then octaveField dir x y n a b
      else cell a b := by
  induction ic generalizing cell with
  | zero => simp [firstOctaveI]
  | succ ic ih =>
      rw [firstOctaveI, firstOctaveJ_apply]
      by_cases hw : ic * n ≤ a ∧ a < ic * n + n ∧ b < r * n
      · rw [if_pos hw]
        have hdiv : a / n = ic :=
          Nat.div_eq_of_lt_le hw.1 (by rw [Nat.succ_mul]; omega)
        have hm := Nat.mod_add_div a n
        rw [hdiv, Nat.mul_comm n ic] at hm
        have hmod : a % n = a - ic * n := by omega
        rw [if_pos (show a < (ic + 1) * n ∧ b < r * n by rw [Nat.add_mul]; omega)]
        rw [octaveField, hdiv, hmod]
      · rw [if_neg hw, ih]
        by_cases hb : a < ic * n ∧ b < r * n
        · rw [if_pos hb, if_pos (show a < (ic + 1) * n ∧ b < r * n by
            rw [Nat.add_mul]; omega)]
        · rw [if_neg hb, if_neg (show ¬(a < (ic + 1) * n ∧ b < r * n) by
            rw [Nat.add_mul]; omega)]

lemma addOctaveJ_apply (dir : ℤ → ℤ → ℚ × ℚ) (x y : ℤ) {n : ℕ}
    (i0 : ℕ) (scale : ℚ) (jc : ℕ) (cell : ℕ → ℕ → ℚ) (a b : ℕ) :
    addOctaveJ dir x y n i0 scale jc cell a b =
      cell a b +
        (if i0 * n ≤ a ∧ a < i0 * n + n ∧ b < jc * n then
          scale * getNoisePt dir (x + i0) (y + (b / n : ℕ)) n (a - i0 * n) (b % n)
        else 0) := by
  induction jc generalizing cell with
  | zero => simp [addOctaveJ]
  | succ jc ih =>
      rw [addOctaveJ]
      simp only [addNoiseCell]
      by_cases hw : i0 * n ≤ a ∧ a < i0 * n + n ∧ jc * n ≤ b ∧ b < jc * n + n
      · rw [if_pos hw, ih]
        have hdiv : b / n = jc :=
          Nat.div_eq_of_lt_le hw.2.2.1 (by rw [Nat.succ_mul]; omega)
        have hm := Nat.mod_add_div b n
        rw [hdiv, Nat.mul_comm n jc] at hm
        have hmod : b % n = b - jc * n := by omega
        rw [if_neg (show ¬(i0 * n ≤ a ∧ a < i0 * n + n ∧ b < jc * n) by omega)]
        rw [if_pos (show i0 * n ≤ a ∧ a < i0 * n + n ∧ b < (jc + 1) * n by
          rw [Nat.add_mul]; omega)]
        rw [hdiv, hmod]
        ring
      · rw [if_neg hw, ih]
        by_cases hb : i0 * n ≤ a ∧ a < i0 * n + n ∧ b < jc * n
        · rw [if_pos hb, if_pos (show i0 * n ≤ a ∧ a < i0 * n + n ∧ b < (jc + 1) * n by
            rw [Nat.add_mul]; omega)]
        · rw [if_neg hb, if_neg (show ¬(i0 * n ≤ a ∧ a < i0 * n + n ∧ b < (jc + 1) * n) by
            rw [Nat.add_mul]; omega)]

lemma addOctaveI_apply (dir : ℤ → ℤ → ℚ × ℚ) (x y : ℤ) {n : ℕ} (scale : ℚ)
    (r : ℕ) (ic : ℕ) (cell : ℕ → ℕ → ℚ) (a b : ℕ) :
    addOctaveI dir x y n scale r ic cell a b =
      cell a b +
        (if a < ic * n ∧ b < r * n then scale * octaveField dir x y n a b
        else 0) := by
  induction ic generalizing cell with
  | zero => simp [addOctaveI]
  | succ ic ih =>
      rw [addOctaveI, addOctaveJ_apply, ih]
      by_cases hw : ic * n ≤ a ∧ a < ic * n + n ∧ b < r * n
      · have hdiv : a / n = ic :=
          Nat.div_eq_of_lt_le hw.1 (by rw [Nat.succ_mul]; omega)
        have hm := Nat.mod_add_div a n
        rw [hdiv, Nat.mul_comm n ic] at hm
        have hmod : a % n = a - ic * n := by omega
        rw [if_neg (show ¬(a < ic * n ∧ b < r * n) by omega)]
        rw [if_pos hw]
        rw [if_pos (show a < (ic + 1) * n ∧ b < r * n by rw [Nat.add_mul]; omega)]
        rw [octaveField, hdiv, hmod]
        ring
      · rw [if_neg hw]
        by_cases hb : a < ic * n ∧ b < r * n
        · rw [if_pos hb, if_pos (show a < (ic + 1) * n ∧ b < r * n by
            rw [Nat.add_mul]; omega)]
          ring
        · rw [if_neg hb, if_neg (show ¬(a < (ic + 1) * n ∧ b < r * n) by
            rw [Nat.add_mul]; omega)]
          ring

/-! Analytic bounds for a single octave of amortized noise. -/

lemma s_curve2_nonneg {t : ℚ} (h0 : 0 ≤ t) : 0 ≤ s_curve2 t := by
  have h1 : 0 ≤ t * t * t := by positivity
  have h2 : (0 : ℚ) < 10 + 3 * t * (2 * t - 5) := by nlinarith [sq_nonneg (t - 5/4)]
  unfold s_curve2
  exact mul_nonneg h1 h2.le

lemma s_curve2_le_one {t : ℚ} (h0 : 0 ≤ t) (h1 : t ≤ 1) : s_curve2 t ≤ 1 := by
  have key : s_curve2 t = 1 - s_curve2 (1 - t) := by
    unfold s_curve2
    ring
  have h2 : 0 ≤ s_curve2 (1 - t) := s_curve2_nonneg (by linarith)
  linarith [key]

lemma lerp_sq_le {s a b : ℚ} (h0 : 0 ≤ s) (h1 : s ≤ 1) :
    (lerp s a b) ^ 2 ≤ (1 - s) * a ^ 2 + s * b ^ 2 := by
  unfold lerp
  nlinarith [mul_nonneg (mul_nonneg h0 (by linarith : (0:ℚ) ≤ 1 - s)) (sq_nonneg (a - b))]

lemma dot_sq_le {c s X Y : ℚ} (h : c ^ 2 + s ^ 2 ≤ 1) :
    (X * c + Y * s) ^ 2 ≤ X ^ 2 + Y ^ 2 := by
  nlinarith [sq_nonneg (X * s - Y * c),
    mul_le_mul_of_nonneg_left h (by positivity : (0:ℚ) ≤ X ^ 2 + Y ^ 2)]

/-- The key one-dimensional estimate: the quintic-spline blend of squared
displacements along one axis never exceeds 1/4. -/
lemma g_quarter (t : ℚ) :
    (1 - s_curve2 t) * t ^ 2 + s_curve2 t * (t - 1) ^ 2 ≤ 1 / 4 := by
  have key : 1 / 4 - ((1 - s_curve2 t) * t ^ 2 + s_curve2 t * (t - 1) ^ 2)
      = (t - 1/2) ^ 2 * ((2 * (t * (1 - t)) + 1) ^ 2 + 8 * (t * (1 - t)) ^ 2) := by
    unfold s_curve2
    ring
  nlinarith [sq_nonneg (t - 1/2), sq_nonneg (2 * (t * (1 - t)) + 1),
    sq_nonneg (t * (1 - t)),
    mul_nonneg (sq_nonneg (t - 1/2))
      (by positivity : (0:ℚ) ≤ (2 * (t * (1 - t)) + 1) ^ 2 + 8 * (t * (1 - t)) ^ 2)]

/-- A single octave point of amortized noise has squared magnitude at most
1/2 whenever every gradient has length at most 1; this is the classical
sqrt(2)/2 amplitude bound for 2D gradient noise. -/
lemma getNoisePt_sq_le (dir : ℤ → ℤ → ℚ × ℚ)
    (hdir : ∀ x y, (dir x y).1 ^ 2 + (dir x y).2 ^ 2 ≤ 1)
    (x0 y0 : ℤ) {n i j : ℕ} (hi : i < n) (hj : j < n) :
    (getNoisePt dir x0 y0 n i j) ^ 2 ≤ 1 / 2 := by
  have hn0 : 0 < n := lt_of_le_of_lt (Nat.zero_le i) hi
  have hnq : (0 : ℚ) < (n : ℚ) := by exact_mod_cast hn0
  set X : ℚ := (j : ℚ) / n with hX
  set Y : ℚ := (i : ℚ) / n with hY
  have hX0 : 0 ≤ X := by positivity
  have hX1 : X ≤ 1 := by
    rw [hX, div_le_one hnq]
    exact_mod_cast hj.le
  have hY0 : 0 ≤ Y := by positivity
  have hY1 : Y ≤ 1 := by
    rw [hY, div_le_one hnq]
    exact_mod_cast hi.le
  set sx : ℚ := s_curve2 X with hsx
  set sy : ℚ := s_curve2 Y with hsy
  have hsx0 : 0 ≤ sx := s_curve2_nonneg hX0
  have hsx1 : sx ≤ 1 := s_curve2_le_one hX0 hX1
  have hsy0 : 0 ≤ sy := s_curve2_nonneg hY0
  have hsy1 : sy ≤ 1 := s_curve2_le_one hY0 hY1
  rw [getNoisePt_eq dir x0 y0 hi hj]
  set t1 : ℚ := X * (dir x0 y0).1 + Y * (dir x0 y0).2 with ht1
  set t2 : ℚ := (X - 1) * (dir x0 (y0 + 1)).1 + Y * (dir x0 (y0 + 1)).2 with ht2
  set t3 : ℚ := X * (dir (x0 + 1) y0).1 + (Y - 1) * (dir (x0 + 1) y0).2 with ht3
  set t4 : ℚ := (X - 1) * (dir (x0 + 1) (y0 + 1)).1 +
      (Y - 1) * (dir (x0 + 1) (y0 + 1)).2 with ht4
  have e1 : t1 ^ 2 ≤ X ^ 2 + Y ^ 2 := dot_sq_le (hdir x0 y0)
  have e2 : t2 ^ 2 ≤ (X - 1) ^ 2 + Y ^ 2 := dot_sq_le (hdir x0 (y0 + 1))
  have e3 : t3 ^ 2 ≤ X ^ 2 + (Y - 1) ^ 2 := dot_sq_le (hdir (x0 + 1) y0)
  have e4 : t4 ^ 2 ≤ (X - 1) ^ 2 + (Y - 1) ^ 2 := dot_sq_le (hdir (x0 + 1) (y0 + 1))
  have hA : (lerp sx t1 t2) ^ 2 ≤ (1 - sx) * t1 ^ 2 + sx * t2 ^ 2 :=
    lerp_sq_le hsx0 hsx1
  have hB : (lerp sx t3 t4) ^ 2 ≤ (1 - sx) * t3 ^ 2 + sx * t4 ^ 2 :=
    lerp_sq_le hsx0 hsx1
  have hTop : (lerp sy (lerp sx t1 t2) (lerp sx t3 t4)) ^ 2 ≤
      (1 - sy) * ((1 - sx) * t1 ^ 2 + sx * t2 ^ 2) +
        sy * ((1 - sx) * t3 ^ 2 + sx * t4 ^ 2) := by
    calc (lerp sy (lerp sx t1 t2) (lerp sx t3 t4)) ^ 2
        ≤ (1 - sy) * (lerp sx t1 t2) ^ 2 + sy * (lerp sx t3 t4) ^ 2 :=
          lerp_sq_le hsy0 hsy1
      _ ≤ (1 - sy) * ((1 - sx) * t1 ^ 2 + sx * t2 ^ 2) +
            sy * ((1 - sx) * t3 ^ 2 + sx * t4 ^ 2) := by
          have hsy' : (0:ℚ) ≤ 1 - sy := by linarith
          exact add_le_add (mul_le_mul_of_nonneg_left hA hsy')
            (mul_le_mul_of_nonneg_left hB hsy0)
  have hSum : (1 - sy) * ((1 - sx) * (X ^ 2 + Y ^ 2) + sx * ((X - 1) ^ 2 + Y ^ 2)) +
      sy * ((1 - sx) * (X ^ 2 + (Y - 1) ^ 2) + sx * ((X - 1) ^ 2 + (Y - 1) ^ 2)) =
      ((1 - sx) * X ^ 2 + sx * (X - 1) ^ 2) +
        ((1 - sy) * Y ^ 2 + sy * (Y - 1) ^ 2) := by ring
  have hgx := g_quarter X
  have hgy := g_quarter Y
  have hsx' : (0:ℚ) ≤ 1 - sx := by linarith
  have hsy' : (0:ℚ) ≤ 1 - sy := by linarith
  calc (lerp sy (lerp sx t1 t2) (lerp sx t3 t4)) ^ 2
      ≤ (1 - sy) * ((1 - sx) * t1 ^ 2 + sx * t2 ^ 2) +
          sy * ((1 - sx) * t3 ^ 2 + sx * t4 ^ 2) := hTop
    _ ≤ (1 - sy) * ((1 - sx) * (X ^ 2 + Y ^ 2) + sx * ((X - 1) ^ 2 + Y ^ 2)) +
          sy * ((1 - sx) * (X ^ 2 + (Y - 1) ^ 2) + sx * ((X - 1) ^ 2 + (Y - 1) ^ 2)) := by
        have b1 : (1 - sx) * t1 ^ 2 + sx * t2 ^ 2 ≤
            (1 - sx) * (X ^ 2 + Y ^ 2) + sx * ((X - 1) ^ 2 + Y ^ 2) :=
          add_le_add (mul_le_mul_of_nonneg_left e1 hsx')
            (mul_le_mul_of_nonneg_left e2 hsx0)
        have b2 : (1 - sx) * t3 ^ 2 + sx * t4 ^ 2 ≤
            (1 - sx) * (X ^ 2 + (Y - 1) ^ 2) + sx * ((X - 1) ^ 2 + (Y - 1) ^ 2) :=
          add_le_add (mul_le_mul_of_nonneg_left e3 hsx')
            (mul_le_mul_of_nonneg_left e4 hsx0)
        exact add_le_add (mul_le_mul_of_nonneg_left b1 hsy')
          (mul_le_mul_of_nonneg_left b2 hsy0)
    _ = ((1 - sx) * X ^ 2 + sx * (X - 1) ^ 2) +
          ((1 - sy) * Y ^ 2 + sy * (Y - 1) ^ 2) := hSum
    _ ≤ 1 / 4 + 1 / 4 := add_le_add hgx hgy
    _ = 1 / 2 := by norm_num

/-! Structure of the subsequent-octave loop. -/

lemma octLoop_stuck (dir : ℤ → ℤ → ℚ × ℚ) {st : St} (h : ¬ 2 ≤ st.n) :
    ∀ k, octLoop dir k st = st := by
  intro k
  cases k with
  | zero => rfl
  | succ k => rw [octLoop, if_neg h]

lemma octLoop_split (dir : ℤ → ℤ → ℚ × ℚ) (j k : ℕ) (st : St) :
    octLoop dir (j + k) st = octLoop dir k (octLoop dir j st) := by
  induction j generalizing st with
  | zero => rw [Nat.zero_add]; rfl
  | succ j ih =>
      have hadd : j + 1 + k = (j + k) + 1 := by omega
      rw [hadd, octLoop]
      by_cases h : 2 ≤ st.n
      · rw [if_pos h, ih, octLoop, if_pos h]
      · rw [if_neg h, octLoop_stuck dir h, octLoop_stuck dir h]

lemma octLoop_scale_bounds (dir : ℤ → ℤ → ℚ × ℚ) :
    ∀ (k : ℕ) (st : St), 0 ≤ st.scale →
      0 ≤ (octLoop dir k st).scale ∧ (octLoop dir k st).scale ≤ st.scale := by
  intro k
  induction k with
  | zero => exact fun st h => ⟨h, le_refl _⟩
  | succ k ih =>
      intro st h
      rw [octLoop]
      by_cases hn : 2 ≤ st.n
      · rw [if_pos hn]
        have h1 : 0 ≤ (octBody dir st).scale := by
          simp only [octBody]
          positivity
        have h2 : (octBody dir st).scale ≤ st.scale := by
          simp only [octBody]
          linarith
        exact ⟨(ih _ h1).1, le_trans (ih _ h1).2 h2⟩
      · rw [if_neg hn]
        exact ⟨h, le_refl _⟩

/-- Every subsequent octave writes strictly inside the square written by the
current state: the loop never touches a row or column at index at least
r * n. -/
lemma octLoop_frame (dir : ℤ → ℤ → ℚ × ℚ) :
    ∀ (k : ℕ) (st : St) (a b : ℕ), (st.r * st.n ≤ a ∨ st.r * st.n ≤ b) →
      (octLoop dir k st).cell a b = st.cell a b := by
  intro k
  induction k with
  | zero => intro st a b _; rfl
  | succ k ih =>
      intro st a b hab
      rw [octLoop]
      by_cases hn : 2 ≤ st.n
      · rw [if_pos hn]
        have hreg : (st.r + st.r) * (st.n / 2) ≤ st.r * st.n := by
          have h2 : st.n / 2 * 2 ≤ st.n := Nat.div_mul_le_self st.n 2
          calc (st.r + st.r) * (st.n / 2) = st.r * (st.n / 2 * 2) := by ring
            _ ≤ st.r * st.n := Nat.mul_le_mul_left _ h2
        have hbody : (octBody dir st).cell a b = st.cell a b := by
          simp only [octBody]
          rw [addOctaveI_apply]
          rw [if_neg (by omega : ¬(a < (st.r + st.r) * (st.n / 2) ∧
            b < (st.r + st.r) * (st.n / 2)))]
          ring
        have hreg' : (octBody dir st).r * (octBody dir st).n ≤ a ∨
            (octBody dir st).r * (octBody dir st).n ≤ b := by
          simp only [octBody]
          omega
        rw [ih (octBody dir st) a b hreg', hbody]
      · rw [if_neg hn]

/-- The loop control and the non-buffer state components do not depend on
the buffer, and the buffer update at a fixed position depends only on the
non-buffer components and the previous value at that position. -/
lemma octLoop_congr (dir : ℤ → ℤ → ℚ × ℚ) :
    ∀ (k : ℕ) (st st' : St), st.x = st'.x → st.y = st'.y → st.n = st'.n →
      st.r = st'.r → st.scale = st'.scale →
      ((octLoop dir k st).x = (octLoop dir k st').x ∧
        (octLoop dir k st).y = (octLoop dir k st').y ∧
        (octLoop dir k st).n = (octLoop dir k st').n ∧
        (octLoop dir k st).r = (octLoop dir k st').r ∧
        (octLoop dir k st).scale = (octLoop dir k st').scale) ∧
      ∀ a b, st.cell a b = st'.cell a b →
        (octLoop dir k st).cell a b = (octLoop dir k st').cell a b := by
  intro k
  induction k with
  | zero =>
      intro st st' hx hy hn hr hs
      exact ⟨⟨hx, hy, hn, hr, hs⟩, fun a b h => h⟩
  | succ k ih =>
      intro st st' hx hy hn hr hs
      rw [octLoop, octLoop]
      by_cases h2 : 2 ≤ st.n
      · rw [if_pos h2, if_pos (hn ▸ h2)]
        have hbx : (octBody dir st).x = (octBody dir st').x := by
          simp only [octBody]; rw [hx]
        have hby : (octBody dir st).y = (octBody dir st').y := by
          simp only [octBody]; rw [hy]
        have hbn : (octBody dir st).n = (octBody dir st').n := by
          simp only [octBody]; rw [hn]
        have hbr : (octBody dir st).r = (octBody dir st').r := by
          simp only [octBody]; rw [hr]
        have hbs : (octBody dir st).scale = (octBody dir st').scale := by
          simp only [octBody]; rw [hs]
        refine ⟨(ih _ _ hbx hby hbn hbr hbs).1, fun a b hab => ?_⟩
        refine (ih _ _ hbx hby hbn hbr hbs).2 a b ?_
        simp only [octBody]
        rw [addOctaveI_apply, addOctaveI_apply, hab, hx, hy, hn, hr, hs]
      · rw [if_neg h2, if_neg (hn ▸ h2)]
        exact ⟨⟨hx, hy, hn, hr, hs⟩, fun a b h => h⟩

/-- Conversion of the squared pointwise bound to an absolute-value bound
over the reals. -/
lemma abs_rat_le_halfSqrt2 {q : ℚ} (h : q ^ 2 ≤ 1 / 2) :
    |(q : ℝ)| ≤ Real.sqrt 2 / 2 := by
  have h' : ((q : ℝ)) ^ 2 ≤ 1 / 2 := by
    rw [show ((1 : ℝ) / 2) = ((1 / 2 : ℚ) : ℝ) by norm_num]
    exact_mod_cast h
  have hs : (Real.sqrt 2 / 2) ^ 2 = 1 / 2 := by
    rw [div_pow, Real.sq_sqrt (by norm_num : (0:ℝ) ≤ 2)]
    norm_num
  have h0 : 0 ≤ Real.sqrt 2 / 2 := by positivity
  nlinarith [abs_nonneg ((q : ℝ)), sq_abs ((q : ℝ))]

/-- One subsequent octave changes each buffer entry by at most its new
accumulation scale times sqrt(2)/2. -/
lemma octBody_dist (dir : ℤ → ℤ → ℚ × ℚ)
    (hdir : ∀ x y, (dir x y).1 ^ 2 + (dir x y).2 ^ 2 ≤ 1)
    {st : St} (hn : 2 ≤ st.n) (hs : 0 ≤ st.scale) (a b : ℕ) :
    |(((octBody dir st).cell a b : ℚ) : ℝ) - ((st.cell a b : ℚ) : ℝ)| ≤
      (((octBody dir st).scale : ℚ) : ℝ) * (Real.sqrt 2 / 2) := by
  simp only [octBody]
  rw [addOctaveI_apply]
  by_cases hc : a < (st.r + st.r) * (st.n / 2) ∧ b < (st.r + st.r) * (st.n / 2)
  · rw [if_pos hc]
    have hn1 : 1 ≤ st.n / 2 := by omega
    have hi : a % (st.n / 2) < st.n / 2 := Nat.mod_lt a (by omega)
    have hj : b % (st.n / 2) < st.n / 2 := Nat.mod_lt b (by omega)
    have hf : (octaveField dir (st.x + st.x) (st.y + st.y) (st.n / 2) a b) ^ 2 ≤ 1 / 2 :=
      getNoisePt_sq_le dir hdir _ _ hi hj
    have habs : |((octaveField dir (st.x + st.x) (st.y + st.y) (st.n / 2) a b : ℚ) : ℝ)| ≤
        Real.sqrt 2 / 2 := abs_rat_le_halfSqrt2 hf
    have hs' : (0 : ℝ) ≤ ((st.scale : ℚ) : ℝ) := by exact_mod_cast hs
    have hsc : (0 : ℝ) ≤ ((st.scale * (1 / 2) : ℚ) : ℝ) := by
      push_cast
      linarith
    calc |((st.cell a b + st.scale * (1 / 2) *
            octaveField dir (st.x + st.x) (st.y + st.y) (st.n / 2) a b : ℚ) : ℝ) -
          ((st.cell a b : ℚ) : ℝ)|
        = ((st.scale * (1 / 2) : ℚ) : ℝ) *
            |((octaveField dir (st.x + st.x) (st.y + st.y) (st.n / 2) a b : ℚ) : ℝ)| := by
          push_cast
          rw [show ((st.cell a b : ℝ) + (st.scale : ℝ) * (1 / 2) *
              ((octaveField dir (st.x + st.x) (st.y + st.y) (st.n / 2) a b : ℚ) : ℝ)) -
              (st.cell a b : ℝ) = ((st.scale : ℝ) * (1 / 2)) *
              ((octaveField dir (st.x + st.x) (st.y + st.y) (st.n / 2) a b : ℚ) : ℝ) by ring]
          rw [abs_mul]
          congr 1
          rw [abs_of_nonneg (by push_cast at hsc ⊢; linarith)]
      _ ≤ ((st.scale * (1 / 2) : ℚ) : ℝ) * (Real.sqrt 2 / 2) :=
          mul_le_mul_of_nonneg_left habs hsc
  · rw [if_neg hc]
    simp only [add_zero, sub_self, abs_zero]
    have hs' : (0 : ℝ) ≤ ((st.scale : ℚ) : ℝ) := by exact_mod_cast hs
    have h1 : (0 : ℝ) ≤ ((st.scale * (1 / 2) : ℚ) : ℝ) := by
      push_cast
      linarith
    exact mul_nonneg h1 (by positivity)

/-- Accumulated buffer change over the subsequent-octave loop: each entry
moves by at most (scale before - scale after) * sqrt(2)/2, the telescoped
sum of the per-octave amplitudes times the per-octave point bound. -/
lemma octLoop_dist (dir : ℤ → ℤ → ℚ × ℚ)
    (hdir : ∀ x y, (dir x y).1 ^ 2 + (dir x y).2 ^ 2 ≤ 1) :
    ∀ (k : ℕ) (st : St), 0 ≤ st.scale → ∀ a b,
      |(((octLoop dir k st).cell a b : ℚ) : ℝ) - ((st.cell a b : ℚ) : ℝ)| ≤
        (((st.scale : ℚ) : ℝ) - (((octLoop dir k st).scale : ℚ) : ℝ)) *
          (Real.sqrt 2 / 2) := by
  intro k
  induction k with
  | zero =>
      intro st hs a b
      simp [octLoop]
  | succ k ih =>
      intro st hs a b
      rw [octLoop]
      by_cases hn : 2 ≤ st.n
      · rw [if_pos hn]
        have hs1 : 0 ≤ (octBody dir st).scale := by
          simp only [octBody]
          positivity
        have hstep := octBody_dist dir hdir hn hs a b
        have hrest := ih (octBody dir st) hs1 a b
        have hscale : ((octBody dir st).scale : ℚ) = st.scale * (1 / 2) := by
          simp only [octBody]
        have htri : |(((octLoop dir k (octBody dir st)).cell a b : ℚ) : ℝ) -
            ((st.cell a b : ℚ) : ℝ)| ≤
            |(((octLoop dir k (octBody dir st)).cell a b : ℚ) : ℝ) -
              (((octBody dir st).cell a b : ℚ) : ℝ)| +
            |(((octBody dir st).cell a b : ℚ) : ℝ) - ((st.cell a b : ℚ) : ℝ)| :=
          abs_sub_le _ _ _
        have hsum : (((octBody dir st).scale : ℚ) : ℝ) -
            (((octLoop dir k (octBody dir st)).scale : ℚ) : ℝ) +
            (((octBody dir st).scale : ℚ) : ℝ) =
            ((st.scale : ℚ) : ℝ) - (((octLoop dir k (octBody dir st)).scale : ℚ) : ℝ) := by
          rw [hscale]
          push_cast
          ring
        calc |(((octLoop dir k (octBody dir st)).cell a b : ℚ) : ℝ) -
              ((st.cell a b : ℚ) : ℝ)|
            ≤ |(((octLoop dir k (octBody dir st)).cell a b : ℚ) : ℝ) -
                (((octBody dir st).cell a b : ℚ) : ℝ)| +
              |(((octBody dir st).cell a b : ℚ) : ℝ) - ((st.cell a b : ℚ) : ℝ)| := htri
          _ ≤ ((((octBody dir st).scale : ℚ) : ℝ) -
                (((octLoop dir k (octBody dir st)).scale : ℚ) : ℝ)) * (Real.sqrt 2 / 2) +
              (((octBody dir st).scale : ℚ) : ℝ) * (Real.sqrt 2 / 2) :=
              add_le_add hrest hstep
          _ = ((((octBody dir st).scale : ℚ) : ℝ) -
                (((octLoop dir k (octBody dir st)).scale : ℚ) : ℝ) +
                (((octBody dir st).scale : ℚ) : ℝ)) * (Real.sqrt 2 / 2) := by ring
          _ = (((st.scale : ℚ) : ℝ) -
                (((octLoop dir k (octBody dir st)).scale : ℚ) : ℝ)) * (Real.sqrt 2 / 2) := by
              rw [hsum]
      · rw [if_neg hn]
        simp [abs_nonneg]

/-- Closed form of the skip loop: m0 - 1 iterations of n /= 2; r += r. -/
lemma skipLoop_eq : ∀ (k : ℕ) (n r : ℕ), skipLoop k (n, r) = (n / 2 ^ k, r * 2 ^ k) := by
  intro k
  induction k with
  | zero => intro n r; simp [skipLoop]
  | succ k ih =>
      intro n r
      show skipLoop k (n / 2, r + r) = (n / 2 ^ (k + 1), r * 2 ^ (k + 1))
      rw [ih]
      have h1 : n / 2 / 2 ^ k = n / 2 ^ (k + 1) := by
        rw [Nat.div_div_eq_div_mul, pow_succ]
        ring_nf
      have h2 : (r + r) * 2 ^ k = r * 2 ^ (k + 1) := by
        rw [pow_succ]
        ring
      rw [h1, h2]

/-- When the guard never fails, j iterations of the subsequent-octave loop
double the origin and the subcell count, halve the granularity, and halve
the accumulation scale, j times over. -/
lemma octLoop_run (dir : ℤ → ℤ → ℚ × ℚ) :
    ∀ (j : ℕ) (x y : ℤ) (n r : ℕ) (s : ℚ) (cell : ℕ → ℕ → ℚ),
      2 ≤ n / 2 ^ j →
      (octLoop dir j { x := x, y := y, n := n, r := r, scale := s, cell := cell }).x
          = 2 ^ j * x ∧
      (octLoop dir j { x := x, y := y, n := n, r := r, scale := s, cell := cell }).y
          = 2 ^ j * y ∧
      (octLoop dir j { x := x, y := y, n := n, r := r, scale := s, cell := cell }).n
          = n / 2 ^ j ∧
      (octLoop dir j { x := x, y := y, n := n, r := r, scale := s, cell := cell }).r
          = 2 ^ j * r ∧
      (octLoop dir j { x := x, y := y, n := n, r := r, scale := s, cell := cell }).scale
          = s * (1 / 2) ^ j := by
  intro j
  induction j with
  | zero =>
      intro x y n r s cell _
      simp [octLoop]
  | succ j ih =>
      intro x y n r s cell hj
      have hn2 : 2 ≤ n := by
        have h1 : n / 2 ^ (j + 1) ≤ n := Nat.div_le_self _ _
        omega
      rw [octLoop, if_pos (by simpa using hn2)]
      have hdd : n / 2 / 2 ^ j = n / 2 ^ (j + 1) := by
        rw [Nat.div_div_eq_div_mul, pow_succ]
        ring_nf
      simp only [octBody]
      have := ih (x + x) (y + y) (n / 2) (r + r) (s * (1 / 2))
        (addOctaveI dir (x + x) (y + y) (n / 2) (s * (1 / 2)) (r + r) (r + r) cell)
        (by rw [hdd]; exact hj)
      refine ⟨?_, ?_, ?_, ?_, ?_⟩
      · rw [this.1]; rw [pow_succ]; ring
      · rw [this.2.1]; rw [pow_succ]; ring
      · rw [this.2.2.1, hdd]
      · rw [this.2.2.2.1]; rw [pow_succ]; ring
      · rw [this.2.2.2.2]; rw [pow_succ]; ring

/-- The buffer change produced by the subsequent-octave loop is linear in
the incoming accumulation scale, and independent of the incoming buffer:
running from scale s on buffer cell adds s times what a run from scale 1 on
the zero buffer produces. -/
lemma octLoop_delta (dir : ℤ → ℤ → ℚ × ℚ) :
    ∀ (k : ℕ) (x y : ℤ) (n r : ℕ) (s : ℚ) (cell : ℕ → ℕ → ℚ) (a b : ℕ),
      (octLoop dir k { x := x, y := y, n := n, r := r, scale := s, cell := cell }).cell a b
        = cell a b +
          s * (octLoop dir k { x := x, y := y, n := n, r := r, scale := 1, cell := fun _ _ => 0 }).cell a b := by
  intro k
  induction k with
  | zero =>
      intro x y n r s cell a b
      simp [octLoop]
  | succ k ih =>
      intro x y n r s cell a b
      rw [octLoop, octLoop]
      by_cases hn : 2 ≤ n
      · rw [if_pos (by simpa using hn), if_pos (by simpa using hn)]
        simp only [octBody]
        rw [ih (x + x) (y + y) (n / 2) (r + r) (s * (1 / 2)) _ a b,
          ih (x + x) (y + y) (n / 2) (r + r) (1 * (1 / 2)) _ a b]
        rw [addOctaveI_apply, addOctaveI_apply]
        by_cases hc : a < (r + r) * (n / 2) ∧ b < (r + r) * (n / 2)
        · rw [if_pos hc, if_pos hc]
          ring
        · rw [if_neg hc, if_neg hc]
          ring
      · rw [if_neg (by simpa using hn), if_neg (by simpa using hn)]
        simp

/-- Unfolding of generate on the non-degenerate path. -/
lemma generate_eq (dir : ℤ → ℤ → ℚ × ℚ) (x y : ℤ) (m0 m1 : ℤ) (n : ℕ)
    (cell : ℕ → ℕ → ℚ) (h2 : 2 ≤ (skipLoop (m0 - 1).toNat (n, 1)).1) :
    generate dir x y m0 m1 n cell =
      (Real.sqrt 2 / (2 - (((octLoop dir (m1 - m0).toNat
          { x := x, y := y, n := (skipLoop (m0 - 1).toNat (n, 1)).1,
            r := (skipLoop (m0 - 1).toNat (n, 1)).2, scale := 1,
            cell := firstOctaveI dir x y (skipLoop (m0 - 1).toNat (n, 1)).1
              (skipLoop (m0 - 1).toNat (n, 1)).2
              (skipLoop (m0 - 1).toNat (n, 1)).2 cell }).scale : ℚ) : ℝ)),
        (octLoop dir (m1 - m0).toNat
          { x := x, y := y, n := (skipLoop (m0 - 1).toNat (n, 1)).1,
            r := (skipLoop (m0 - 1).toNat (n, 1)).2, scale := 1,
            cell := firstOctaveI dir x y (skipLoop (m0 - 1).toNat (n, 1)).1
              (skipLoop (m0 - 1).toNat (n, 1)).2
              (skipLoop (m0 - 1).toNat (n, 1)).2 cell }).cell) := by
  simp only [generate]
  rw [if_neg (by omega)]

/-- Unfolding of generate on the degenerate fail-and-bail path. -/
lemma generate_degenerate_eq (dir : ℤ → ℤ → ℚ × ℚ) (x y : ℤ) (m0 m1 : ℤ) (n : ℕ)
    (cell : ℕ → ℕ → ℚ) (h2 : (skipLoop (m0 - 1).toNat (n, 1)).1 < 2) :
    generate dir x y m0 m1 n cell = ((1 : ℝ), cell) := by
  simp only [generate]
  rw [if_pos h2]

/-- A concrete unit-length gradient field used to instantiate theorems. -/
def dirUnit : ℤ → ℤ → ℚ × ℚ := fun _ _ => (1, 0)

/-- A concrete gradient field that is nonzero only at lattice point (0, 0),
used to build counterexamples. -/
def dirSpike : ℤ → ℤ → ℚ × ℚ := fun p q => (if p = 0 ∧ q = 0 then 1 else 0, 0)

/-- The all-zeros buffer. -/
def zeroCell : ℕ → ℕ → ℚ := fun _ _ => 0

/-- A buffer holding 10.0 everywhere, standing for arbitrary caller garbage. -/
def tenCell : ℕ → ℕ → ℚ := fun _ _ => 10

/-- Buffer component of generate on the non-degenerate path. -/
lemma generate_cell_eq (dir : ℤ → ℤ → ℚ × ℚ) (x y : ℤ) (m0 m1 : ℤ) (n : ℕ)
    (cell : ℕ → ℕ → ℚ) (h2 : 2 ≤ (skipLoop (m0 - 1).toNat (n, 1)).1) :
    (generate dir x y m0 m1 n cell).2 =
      (octLoop dir (m1 - m0).toNat
        { x := x, y := y, n := (skipLoop (m0 - 1).toNat (n, 1)).1,
          r := (skipLoop (m0 - 1).toNat (n, 1)).2, scale := 1,
          cell := firstOctaveI dir x y (skipLoop (m0 - 1).toNat (n, 1)).1
            (skipLoop (m0 - 1).toNat (n, 1)).2
            (skipLoop (m0 - 1).toNat (n, 1)).2 cell }).cell := by
  rw [generate_eq dir x y m0 m1 n cell h2]

/-- Returned renormalization factor of generate on the non-degenerate path. -/
lemma generate_ret_eq (dir : ℤ → ℤ → ℚ × ℚ) (x y : ℤ) (m0 m1 : ℤ) (n : ℕ)
    (cell : ℕ → ℕ → ℚ) (h2 : 2 ≤ (skipLoop (m0 - 1).toNat (n, 1)).1) :
    (generate dir x y m0 m1 n cell).1 =
      Real.sqrt 2 / (2 - (((octLoop dir (m1 - m0).toNat
        { x := x, y := y, n := (skipLoop (m0 - 1).toNat (n, 1)).1,
          r := (skipLoop (m0 - 1).toNat (n, 1)).2, scale := 1,
          cell := firstOctaveI dir x y (skipLoop (m0 - 1).toNat (n, 1)).1
            (skipLoop (m0 - 1).toNat (n, 1)).2
            (skipLoop (m0 - 1).toNat (n, 1)).2 cell }).scale : ℚ) : ℝ)) := by
  rw [generate_eq dir x y m0 m1 n cell h2]

/-! Claim theorems. -/

/-- C3: whenever the skip phase drives the granularity below 2, generate
returns exactly 1.0 and leaves the caller's buffer completely untouched. -/
theorem generate_degenerate_noop (dir : ℤ → ℤ → ℚ × ℚ) (x y : ℤ) (m0 m1 : ℤ)
    (n : ℕ) (cell : ℕ → ℕ → ℚ)
    (h : (skipLoop (m0 - 1).toNat (n, 1)).1 < 2) :
    generate dir x y m0 m1 n cell = ((1 : ℝ), cell) :=
  generate_degenerate_eq dir x y m0 m1 n cell h

/-- Witness for C3: generate(0, 0, 5, 8, 8, cell) halves the granularity four
times, reaching 8/16 = 0 < 2, returns 1.0 and does not touch the buffer. -/
theorem generate_degenerate_noop_witness :
    generate dirUnit 0 0 5 8 8 tenCell = ((1 : ℝ), tenCell) :=
  generate_degenerate_noop dirUnit 0 0 5 8 8 tenCell (by decide)

/-- C4: the corner hash, the terrain corner magnitude, and the edge-table
gradient attached to a lattice point are pure functions of the lattice
coordinates (and the fixed seeds), so the corner shared by horizontally or
vertically adjacent cells receives identical values from both cells: the
b10/m10 corner of cell (x0, y0) is the b00/m00 corner of cell (x0+1, y0),
and both cells fill their edge tables from the same gradient dir (x0+1) y0. -/
theorem corner_gradient_seam_pure (h : ℤ → ℤ → ℕ) (hs : ℕ → ℤ → ℤ → ℕ)
    (seed1 seed2 : ℕ) (omega : ℝ) (dir : ℤ → ℤ → ℚ × ℚ) (n : ℕ) (x0 y0 : ℤ) :
    cornerB10 h x0 y0 = cornerB00 h (x0 + 1) y0 ∧
    cornerB01 h x0 y0 = cornerB00 h x0 (y0 + 1) ∧
    cornerB11 h x0 y0 = cornerB00 h (x0 + 1) (y0 + 1) ∧
    cornerM10 hs seed1 seed2 omega x0 y0 = cornerM00 hs seed1 seed2 omega (x0 + 1) y0 ∧
    cornerM01 hs seed1 seed2 omega x0 y0 = cornerM00 hs seed1 seed2 omega x0 (y0 + 1) ∧
    cornerM11 hs seed1 seed2 omega x0 y0 = cornerM00 hs seed1 seed2 omega (x0 + 1) (y0 + 1) ∧
    ubx dir x0 y0 n = uax dir (x0 + 1) y0 n ∧
    uby dir x0 y0 n = FillDn (dir (x0 + 1) y0).2 n ∧
    uay dir (x0 + 1) y0 n = FillUp (dir (x0 + 1) y0).2 n :=
  ⟨rfl, rfl, rfl, rfl, rfl, rfl, rfl, rfl, rfl⟩

/-- C7: generate is deterministic: two runs with the same origin, octave
range, granularity, gradient field (i.e. the same seed and tail multiplier)
and the same initial buffer contents produce identical outputs, both the
buffer and the returned scale. -/
theorem generate_deterministic (dir1 dir2 : ℤ → ℤ → ℚ × ℚ) (x y : ℤ)
    (m0 m1 : ℤ) (n : ℕ) (cell1 cell2 : ℕ → ℕ → ℚ)
    (hdir : ∀ p q, dir1 p q = dir2 p q) (hcell : ∀ a b, cell1 a b = cell2 a b) :
    generate dir1 x y m0 m1 n cell1 = generate dir2 x y m0 m1 n cell2 := by
  have h1 : dir1 = dir2 := funext fun p => funext fun q => hdir p q
  have h2 : cell1 = cell2 := funext fun a => funext fun b => hcell a b
  rw [h1, h2]

/-- Witness for C7 at a concrete input. -/
theorem generate_deterministic_witness :
    generate dirUnit 0 0 1 2 4 zeroCell = generate dirUnit 0 0 1 2 4 zeroCell :=
  generate_deterministic dirUnit dirUnit 0 0 1 2 4 zeroCell zeroCell
    (fun _ _ => rfl) (fun _ _ => rfl)

/-- C8: after initSplineTable(n), entry i of the spline table holds the
quintic smoothstep 6 t^5 - 15 t^4 + 10 t^3 evaluated at t = i/n. -/
theorem splineTable_quintic {n : ℕ} (hn : 1 ≤ n) {i : ℕ} (hi : i < n) :
    splineTable n i =
      6 * ((i : ℚ) / n) ^ 5 - 15 * ((i : ℚ) / n) ^ 4 + 10 * ((i : ℚ) / n) ^ 3 := by
  unfold splineTable s_curve2
  ring

/-- Witness for C8 at n = 2, i = 1. -/
theorem splineTable_quintic_witness :
    splineTable 2 1 =
      6 * ((1 : ℚ) / 2) ^ 5 - 15 * ((1 : ℚ) / 2) ^ 4 + 10 * ((1 : ℚ) / 2) ^ 3 := by
  have h := splineTable_quintic (n := 2) (i := 1) (by norm_num) (by norm_num)
  simpa using h

/-- C10: on a non-degenerate call, no write of any octave ever reaches a row
or column index at or beyond r0 * n0 (post-skip subcell count times
post-skip granularity): every such buffer entry keeps its previous value,
so a border strip stays untouched whenever the input granularity is not
2^(m0-1) times a power of two. -/
theorem generate_frame (dir : ℤ → ℤ → ℚ × ℚ) (x y : ℤ) (m0 m1 : ℤ) (n : ℕ)
    (cell : ℕ → ℕ → ℚ) (h2 : 2 ≤ (skipLoop (m0 - 1).toNat (n, 1)).1) (a b : ℕ)
    (hab : (skipLoop (m0 - 1).toNat (n, 1)).2 * (skipLoop (m0 - 1).toNat (n, 1)).1 ≤ a ∨
      (skipLoop (m0 - 1).toNat (n, 1)).2 * (skipLoop (m0 - 1).toNat (n, 1)).1 ≤ b) :
    (generate dir x y m0 m1 n cell).2 a b = cell a b := by
  rw [generate_cell_eq dir x y m0 m1 n cell h2]
  rw [octLoop_frame dir (m1 - m0).toNat _ a b hab]
  dsimp only
  rw [firstOctaveI_apply]
  rw [if_neg (by omega :
    ¬(a < (skipLoop (m0 - 1).toNat (n, 1)).2 * (skipLoop (m0 - 1).toNat (n, 1)).1 ∧
      b < (skipLoop (m0 - 1).toNat (n, 1)).2 * (skipLoop (m0 - 1).toNat (n, 1)).1))]

/-- Witness for C10: generate(0, 0, 2, 3, 5, cell) has post-skip granularity
2 and subcell count 2, so row 4 is outside the written square and keeps its
caller-supplied value. -/
theorem generate_frame_witness :
    (generate dirUnit 0 0 2 3 5 tenCell).2 4 0 = tenCell 4 0 :=
  generate_frame dirUnit 0 0 2 3 5 tenCell (by decide) 4 0 (by decide)

/-- C9: the first generated octave overwrites rather than accumulates: at
every position inside the written square the final buffer value, and also
the returned scale, are independent of the buffer contents before the call. -/
theorem first_octave_overwrites (dir : ℤ → ℤ → ℚ × ℚ) (x y : ℤ) (m0 m1 : ℤ)
    (n : ℕ) (cell cell' : ℕ → ℕ → ℚ)
    (h2 : 2 ≤ (skipLoop (m0 - 1).toNat (n, 1)).1) (a b : ℕ)
    (ha : a < (skipLoop (m0 - 1).toNat (n, 1)).2 * (skipLoop (m0 - 1).toNat (n, 1)).1)
    (hb : b < (skipLoop (m0 - 1).toNat (n, 1)).2 * (skipLoop (m0 - 1).toNat (n, 1)).1) :
    (generate dir x y m0 m1 n cell).2 a b = (generate dir x y m0 m1 n cell').2 a b ∧
    (generate dir x y m0 m1 n cell).1 = (generate dir x y m0 m1 n cell').1 := by
  rw [generate_cell_eq dir x y m0 m1 n cell h2,
    generate_cell_eq dir x y m0 m1 n cell' h2,
    generate_ret_eq dir x y m0 m1 n cell h2,
    generate_ret_eq dir x y m0 m1 n cell' h2]
  have hcongr := octLoop_congr dir (m1 - m0).toNat
    { x := x, y := y, n := (skipLoop (m0 - 1).toNat (n, 1)).1,
      r := (skipLoop (m0 - 1).toNat (n, 1)).2, scale := 1,
      cell := firstOctaveI dir x y (skipLoop (m0 - 1).toNat (n, 1)).1
        (skipLoop (m0 - 1).toNat (n, 1)).2 (skipLoop (m0 - 1).toNat (n, 1)).2 cell }
    { x := x, y := y, n := (skipLoop (m0 - 1).toNat (n, 1)).1,
      r := (skipLoop (m0 - 1).toNat (n, 1)).2, scale := 1,
      cell := firstOctaveI dir x y (skipLoop (m0 - 1).toNat (n, 1)).1
        (skipLoop (m0 - 1).toNat (n, 1)).2 (skipLoop (m0 - 1).toNat (n, 1)).2 cell' }
    rfl rfl rfl rfl rfl
  constructor
  · refine hcongr.2 a b ?_
    dsimp only
    rw [firstOctaveI_apply, firstOctaveI_apply, if_pos ⟨ha, hb⟩, if_pos ⟨ha, hb⟩]
  · rw [hcongr.1.2.2.2.2]

/-- Witness for C9: two runs from the all-zero and the all-ten buffer agree
inside the written square and return the same scale. -/
theorem first_octave_overwrites_witness :
    (generate dirUnit 0 0 1 2 4 zeroCell).2 1 1 = (generate dirUnit 0 0 1 2 4 tenCell).2 1 1 ∧
    (generate dirUnit 0 0 1 2 4 zeroCell).1 = (generate dirUnit 0 0 1 2 4 tenCell).1 :=
  first_octave_overwrites dirUnit 0 0 1 2 4 zeroCell tenCell (by decide) 1 1
    (by decide) (by decide)

/-- C1 (amended): on a non-degenerate call with unit-length gradients, every
buffer value at row and column index below r0 * n0 (the square actually
written by the call), multiplied by the returned renormalization factor
sqrt(2)/(2 - finalScale), lies in [-1, 1]. -/
theorem generate_bounded_written (dir : ℤ → ℤ → ℚ × ℚ)
    (hdir : ∀ p q, (dir p q).1 ^ 2 + (dir p q).2 ^ 2 = 1) (x y : ℤ) (m0 m1 : ℤ)
    (n : ℕ) (cell : ℕ → ℕ → ℚ)
    (h2 : 2 ≤ (skipLoop (m0 - 1).toNat (n, 1)).1) (a b : ℕ)
    (ha : a < (skipLoop (m0 - 1).toNat (n, 1)).2 * (skipLoop (m0 - 1).toNat (n, 1)).1)
    (hb : b < (skipLoop (m0 - 1).toNat (n, 1)).2 * (skipLoop (m0 - 1).toNat (n, 1)).1) :
    |(((generate dir x y m0 m1 n cell).2 a b : ℚ) : ℝ) *
      (generate dir x y m0 m1 n cell).1| ≤ 1 := by
  have hdir' : ∀ p q, (dir p q).1 ^ 2 + (dir p q).2 ^ 2 ≤ 1 := fun p q => (hdir p q).le
  rw [generate_cell_eq dir x y m0 m1 n cell h2, generate_ret_eq dir x y m0 m1 n cell h2]
  set st0 : St :=
    { x := x, y := y, n := (skipLoop (m0 - 1).toNat (n, 1)).1,
      r := (skipLoop (m0 - 1).toNat (n, 1)).2, scale := 1,
      cell := firstOctaveI dir x y (skipLoop (m0 - 1).toNat (n, 1)).1
        (skipLoop (m0 - 1).toNat (n, 1)).2
        (skipLoop (m0 - 1).toNat (n, 1)).2 cell } with hst0
  have hsc1 : st0.scale = 1 := rfl
  have hscale0 : (0 : ℚ) ≤ st0.scale := by rw [hsc1]; norm_num
  have hsb := octLoop_scale_bounds dir (m1 - m0).toNat st0 hscale0
  set S : ℝ := (((octLoop dir (m1 - m0).toNat st0).scale : ℚ) : ℝ) with hS
  have hS0 : (0 : ℝ) ≤ S := by
    rw [hS]
    exact_mod_cast hsb.1
  have hS1 : S ≤ 1 := by
    have h1 : (octLoop dir (m1 - m0).toNat st0).scale ≤ 1 := by
      have h3 := hsb.2
      rw [hsc1] at h3
      exact h3
    rw [hS]
    exact_mod_cast h1
  have hpos : 0 < (skipLoop (m0 - 1).toNat (n, 1)).1 := by omega
  have hfirstval : st0.cell a b =
      octaveField dir x y (skipLoop (m0 - 1).toNat (n, 1)).1 a b := by
    rw [hst0]
    dsimp only
    rw [firstOctaveI_apply, if_pos ⟨ha, hb⟩]
  have hfield : (octaveField dir x y (skipLoop (m0 - 1).toNat (n, 1)).1 a b) ^ 2 ≤ 1 / 2 := by
    rw [octaveField]
    exact getNoisePt_sq_le dir hdir' _ _ (Nat.mod_lt a hpos) (Nat.mod_lt b hpos)
  have hfirst : |((st0.cell a b : ℚ) : ℝ)| ≤ Real.sqrt 2 / 2 := by
    rw [hfirstval]
    exact abs_rat_le_halfSqrt2 hfield
  have hdist := octLoop_dist dir hdir' (m1 - m0).toNat st0 hscale0 a b
  have hstscale : ((st0.scale : ℚ) : ℝ) = 1 := by rw [hsc1]; norm_num
  rw [hstscale] at hdist
  set V : ℝ := (((octLoop dir (m1 - m0).toNat st0).cell a b : ℚ) : ℝ) with hV
  have hvbound : |V| ≤ (2 - S) * (Real.sqrt 2 / 2) := by
    have htri : |V| ≤ |V - ((st0.cell a b : ℚ) : ℝ)| + |((st0.cell a b : ℚ) : ℝ)| := by
      have := abs_sub_abs_le_abs_sub V ((st0.cell a b : ℚ) : ℝ)
      have h2' := abs_add (V - ((st0.cell a b : ℚ) : ℝ)) ((st0.cell a b : ℚ) : ℝ)
      calc |V| = |V - ((st0.cell a b : ℚ) : ℝ) + ((st0.cell a b : ℚ) : ℝ)| := by ring_nf
        _ ≤ |V - ((st0.cell a b : ℚ) : ℝ)| + |((st0.cell a b : ℚ) : ℝ)| := h2'
    calc |V| ≤ |V - ((st0.cell a b : ℚ) : ℝ)| + |((st0.cell a b : ℚ) : ℝ)| := htri
      _ ≤ (1 - S) * (Real.sqrt 2 / 2) + Real.sqrt 2 / 2 := add_le_add hdist hfirst
      _ = (2 - S) * (Real.sqrt 2 / 2) := by ring
  have h2S : (0 : ℝ) < 2 - S := by linarith
  have hret0 : (0 : ℝ) ≤ Real.sqrt 2 / (2 - S) := div_nonneg (Real.sqrt_nonneg 2) h2S.le
  calc |V * (Real.sqrt 2 / (2 - S))|
      = |V| * (Real.sqrt 2 / (2 - S)) := by
        rw [abs_mul, abs_of_nonneg hret0]
    _ ≤ ((2 - S) * (Real.sqrt 2 / 2)) * (Real.sqrt 2 / (2 - S)) :=
        mul_le_mul_of_nonneg_right hvbound (by positivity)
    _ = (Real.sqrt 2 * Real.sqrt 2) / 2 * ((2 - S) / (2 - S)) := by ring
    _ = 1 := by
        rw [div_self h2S.ne', mul_one, Real.mul_self_sqrt (by norm_num : (0:ℝ) ≤ 2)]
        norm_num

/-- Counterexample for C1 as stated: quantified over every value of the
output buffer the claim fails, because a call whose post-skip square does
not cover the whole buffer leaves caller values outside the square
untouched. Here generate(0, 0, 2, 2, 5, cell) writes only [0,4)^2, returns
sqrt(2)/(2-1) = sqrt(2), and entry (4,4) still holds the caller value 10,
whose product with the returned factor is far outside [-1, 1]. -/
theorem generate_bounded_counterexample :
    ¬ |(((generate dirUnit 0 0 2 2 5 tenCell).2 4 4 : ℚ) : ℝ) *
        (generate dirUnit 0 0 2 2 5 tenCell).1| ≤ 1 := by
  have h2 : 2 ≤ (skipLoop ((2 : ℤ) - 1).toNat (5, 1)).1 := by decide
  have hcell : (generate dirUnit 0 0 2 2 5 tenCell).2 4 4 = 10 := by
    rw [generate_cell_eq dirUnit 0 0 2 2 5 tenCell h2]
    rw [octLoop_frame dirUnit _ _ 4 4 (by decide)]
    dsimp only
    rw [firstOctaveI_apply, if_neg (by decide)]
    rfl
  have hret : (generate dirUnit 0 0 2 2 5 tenCell).1 = Real.sqrt 2 := by
    rw [generate_ret_eq dirUnit 0 0 2 2 5 tenCell h2]
    rw [show ((2 : ℤ) - 2).toNat = 0 from rfl]
    rw [show ∀ st, octLoop dirUnit 0 st = st from fun st => rfl]
    norm_num
  rw [hcell, hret, not_le]
  have h1 : (1 : ℝ) ≤ Real.sqrt 2 := by
    nlinarith [Real.sq_sqrt (show (0:ℝ) ≤ 2 by norm_num), Real.sqrt_nonneg 2]
  rw [abs_of_nonneg (by positivity)]
  push_cast
  nlinarith

/-- Witness for C1 (amended) at a concrete non-degenerate input. -/
theorem generate_bounded_written_witness :
    |(((generate dirUnit 0 0 1 1 2 zeroCell).2 0 0 : ℚ) : ℝ) *
      (generate dirUnit 0 0 1 1 2 zeroCell).1| ≤ 1 :=
  generate_bounded_written dirUnit (by intro p q; norm_num [dirUnit]) 0 0 1 1 2
    zeroCell (by decide) 0 0 (by decide) (by decide)

/-- C5 (amended): for hash inputs x, y at most the stated maximum m ≥ 1 and
any tail multiplier, the exponential-tail mixture value ExpHash(x, y, m, ω)
lies in the closed interval [0, 1]. The endpoints are attained on the
exponential branch: the value is exactly 1 at x = 0 and exactly 0 at x = m,
so the interval cannot be replaced by the open one. -/
theorem expHash_range (x y mx : ℕ) (omega : ℝ) (hx : x ≤ mx) (hy : y ≤ mx)
    (hm : 1 ≤ mx) : 0 ≤ ExpHash x y mx omega ∧ ExpHash x y mx omega ≤ 1 := by
  have hmx : (1 : ℝ) ≤ (mx : ℝ) := by exact_mod_cast hm
  have hxr : ((x : ℕ) : ℝ) ≤ (mx : ℝ) := by exact_mod_cast hx
  have hx0 : (0 : ℝ) ≤ ((x : ℕ) : ℝ) := Nat.cast_nonneg x
  simp only [ExpHash]
  by_cases hcond : UniformHash y mx < min (max omega 0) 1
  · rw [if_pos hcond]
    unfold UniformHash
    constructor
    · positivity
    · rw [div_le_one (by positivity)]
      linarith
  · rw [if_neg hcond]
    unfold ExpHashBase
    have hargm : (1 : ℝ) < (1 / 2) * ((mx : ℝ) + 2) := by nlinarith
    have hL : (0 : ℝ) < Real.log ((1 / 2) * ((mx : ℝ) + 2)) := Real.log_pos hargm
    have harg1 : (1 : ℝ) ≤ (1 / 2) * ((x : ℕ) : ℝ) + 1 := by nlinarith
    have hlog0 : 0 ≤ Real.log ((1 / 2) * ((x : ℕ) : ℝ) + 1) := Real.log_nonneg harg1
    have hlogle : Real.log ((1 / 2) * ((x : ℕ) : ℝ) + 1) ≤
        Real.log ((1 / 2) * ((mx : ℝ) + 2)) := by
      rw [Real.log_le_log_iff (by linarith) (by linarith)]
      nlinarith
    have heq : -(1 / Real.log ((1 / 2) * ((mx : ℝ) + 2))) *
        Real.log ((1 / 2) * ((x : ℕ) : ℝ) + 1) + 1 =
        1 - Real.log ((1 / 2) * ((x : ℕ) : ℝ) + 1) /
          Real.log ((1 / 2) * ((mx : ℝ) + 2)) := by ring
    rw [heq]
    have hq0 : 0 ≤ Real.log ((1 / 2) * ((x : ℕ) : ℝ) + 1) /
        Real.log ((1 / 2) * ((mx : ℝ) + 2)) := div_nonneg hlog0 hL.le
    have hq1 : Real.log ((1 / 2) * ((x : ℕ) : ℝ) + 1) /
        Real.log ((1 / 2) * ((mx : ℝ) + 2)) ≤ 1 := by
      rw [div_le_one hL]
      exact hlogle
    constructor
    · linarith
    · linarith

/-- Counterexample for C5 as stated: the output is not always strictly
inside (0, 1). With tail multiplier 0 the uniform branch is never taken,
and the exponential branch returns exactly 1 at x = 0 (since log 1 = 0) and
exactly 0 at x = m (since the numerator equals the normalizing logarithm). -/
theorem expHash_range_counterexample :
    ExpHash 0 0 3 0 = 1 ∧ ExpHash 3 0 3 0 = 0 := by
  have homega : min (max (0 : ℝ) 0) 1 = 0 := by norm_num
  have hcond : ¬ UniformHash 0 3 < min (max (0 : ℝ) 0) 1 := by
    rw [homega, UniformHash, not_lt]
    positivity
  have hL : Real.log ((1 / 2) * (((3 : ℕ) : ℝ) + 2)) ≠ 0 := by
    have hpos : (0 : ℝ) < Real.log ((1 / 2) * (((3 : ℕ) : ℝ) + 2)) := by
      apply Real.log_pos
      norm_num
    exact hpos.ne'
  constructor
  · simp only [ExpHash]
    rw [if_neg hcond, ExpHashBase]
    norm_num
  · simp only [ExpHash]
    rw [if_neg hcond, ExpHashBase]
    have harg : (1 / 2 : ℝ) * (((3 : ℕ) : ℕ) : ℝ) + 1 = (1 / 2) * (((3 : ℕ) : ℝ) + 2) := by
      norm_num
    rw [harg]
    field_simp

/-- Witness for C5 (amended) at a concrete input. -/
theorem expHash_range_witness :
    0 ≤ ExpHash 1 1 2 (1 / 2) ∧ ExpHash 1 1 2 (1 / 2) ≤ 1 :=
  expHash_range 1 1 2 (1 / 2) (by norm_num) (by norm_num) (by norm_num)

/-- At granularity 1 the single point of a subcell evaluates to zero: both
spline entries in use are s_curve2(0) = 0, so the final interpolation
returns its first argument, which is built from two table entries that are
both zero. -/
lemma getNoisePt_one (dir : ℤ → ℤ → ℚ × ℚ) (x0 y0 : ℤ) :
    getNoisePt dir x0 y0 1 0 0 = 0 := by
  simp [getNoisePt, splineTable, s_curve2, lerp, uax, uay, ubx, uby, vax, vay,
    vbx, vby, FillUp, FillDn, FillDnAux]

/-- The final granularity of the subsequent-octave loop is the last entry of
the granularity trace: octTrace records exactly the octaves the loop
composites. -/
lemma octLoop_trace_n (dir : ℤ → ℤ → ℚ × ℚ) :
    ∀ (k : ℕ) (st : St), (octLoop dir k st).n = (octTrace k st.n).getLastD st.n := by
  intro k
  induction k with
  | zero => intro st; simp [octLoop, octTrace]
  | succ k ih =>
      intro st
      rw [octLoop, octTrace]
      by_cases h : 2 ≤ st.n
      · rw [if_pos h, if_pos h, ih, List.getLastD_cons]
        simp [octBody]
      · rw [if_neg h, if_neg h]
        simp

/-- C6 (amended): the loop guard tests the granularity before halving it, so
one final octave at granularity 1 may be composited, with its spline and
edge tables built at granularity 1; however every value such an octave adds
is zero, so each buffer entry is left exactly as it was: any octave
iteration whose post-halving granularity is below 2 changes no buffer entry. -/
theorem lowOctave_adds_nothing (dir : ℤ → ℤ → ℚ × ℚ) (st : St) (a b : ℕ)
    (h : st.n / 2 < 2) : (octBody dir st).cell a b = st.cell a b := by
  simp only [octBody]
  rw [addOctaveI_apply]
  by_cases hc : a < (st.r + st.r) * (st.n / 2) ∧ b < (st.r + st.r) * (st.n / 2)
  · rw [if_pos hc]
    cases h2 : st.n / 2 with
    | zero =>
        rw [h2] at hc
        omega
    | succ m =>
        have hm : m = 0 := by omega
        subst hm
        rw [octaveField]
        norm_num [Nat.mod_one, getNoisePt_one]
  · rw [if_neg hc]
    ring

/-- Counterexample for C6 as stated: generation does not stop before every
octave of granularity below 2. For generate(x, y, 1, 3, 4, cell) the
subsequent-octave loop composites octaves at granularities 2 and then 1:
the guard checks n before halving, so the granularity-1 octave is built and
added. -/
theorem octave_below_two_composited :
    generateTrace 1 3 4 = [2, 1] ∧ (1 : ℕ) < 2 := by
  constructor
  · decide
  · norm_num

/-- Witness for C6 (amended): an octave iteration entered at granularity 2
(post-halving granularity 1) leaves the buffer entry unchanged. -/
theorem lowOctave_adds_nothing_witness :
    (octBody dirUnit { x := 0, y := 0, n := 2, r := 1, scale := 1, cell := zeroCell }).cell 0 0 =
      zeroCell 0 0 :=
  lowOctave_adds_nothing dirUnit
    { x := 0, y := 0, n := 2, r := 1, scale := 1, cell := zeroCell } 0 0 (by decide)

lemma octLoop_zero (dir : ℤ → ℤ → ℚ × ℚ) (st : St) : octLoop dir 0 st = st := rfl

lemma octLoop_succ (dir : ℤ → ℤ → ℚ × ℚ) (k : ℕ) (st : St) :
    octLoop dir (k + 1) st = if 2 ≤ st.n then octLoop dir k (octBody dir st) else st := rfl

/-- The contribution of octaves m0..m1 inside the full run
generate(x, y, 1, m1, n, zero buffer): following the spec's words, the
full-run buffer minus the buffer of the run truncated after octave m0-1.
The two runs share octaves 1..m0-1 exactly, so this difference is what
octaves m0..m1 composite, "differing only by the omitted lower octaves". -/
noncomputable def octaveContribution (dir : ℤ → ℤ → ℚ × ℚ) (x y : ℤ)
    (m0 m1 : ℤ) (n : ℕ) (a b : ℕ) : ℚ :=
  (generate dir x y 1 m1 n zeroCell).2 a b -
    (generate dir x y 1 (m0 - 1) n zeroCell).2 a b

/-- Counterexample for C2 as stated: the skip phase does not reproduce the
composited values of the remaining octaves. For origin (0,0), granularity 4,
and a gradient field supported at lattice point (0,0),
generate(0, 0, 2, 2, 4, zero) holds 1/4 at position (0,1), while the octave-2
contribution inside generate(0, 0, 1, 2, 4, zero) is 1/8 there: the skipped
run writes its first generated octave at full amplitude 1, whereas octave 2
of the full run is composited with amplitude 1/2. -/
theorem generate_skip_equivalence_counterexample :
    ¬ ((generate dirSpike 0 0 2 2 4 zeroCell).2 0 1 =
        octaveContribution dirSpike 0 0 2 2 4 0 1) := by
  have hp : skipLoop ((2 : ℤ) - 1).toNat (4, 1) = (2, 2) := by decide
  have h2 : 2 ≤ (skipLoop ((2 : ℤ) - 1).toNat (4, 1)).1 := by decide
  have hp0 : skipLoop ((1 : ℤ) - 1).toNat (4, 1) = (4, 1) := by decide
  have h20 : 2 ≤ (skipLoop ((1 : ℤ) - 1).toNat (4, 1)).1 := by decide
  have hfield2 : octaveField dirSpike 0 0 2 0 1 = 1 / 4 := by
    rw [octaveField]
    norm_num [getNoisePt, uax, uay, ubx, uby, vax, vay, vbx, vby, FillUp, FillDn,
      FillDnAux, splineTable, s_curve2, lerp, dirSpike]
  have hfield4 : octaveField dirSpike 0 0 4 0 1 = 459 / 2048 := by
    rw [octaveField]
    norm_num [getNoisePt, uax, uay, ubx, uby, vax, vay, vbx, vby, FillUp, FillDn,
      FillDnAux, splineTable, s_curve2, lerp, dirSpike]
  have hLHS : (generate dirSpike 0 0 2 2 4 zeroCell).2 0 1 = 1 / 4 := by
    rw [generate_cell_eq dirSpike 0 0 2 2 4 zeroCell h2, hp]
    rw [show ((2 : ℤ) - 2).toNat = 0 from rfl, octLoop_zero]
    dsimp only
    rw [firstOctaveI_apply, if_pos (by norm_num)]
    exact hfield2
  have hF1 : firstOctaveI dirSpike 0 0 (4, 1).1 (4, 1).2 (4, 1).2 zeroCell 0 1 =
      459 / 2048 := by
    rw [firstOctaveI_apply, if_pos (by norm_num)]
    exact hfield4
  have hA : (generate dirSpike 0 0 1 2 4 zeroCell).2 0 1 = 715 / 2048 := by
    rw [generate_cell_eq dirSpike 0 0 1 2 4 zeroCell h20, hp0]
    rw [show ((2 : ℤ) - 1).toNat = 1 from rfl, octLoop_succ, octLoop_zero]
    rw [if_pos (by norm_num)]
    simp only [octBody]
    rw [addOctaveI_apply]
    rw [if_pos (by norm_num)]
    rw [hF1]
    norm_num [hfield2]
  have hB : (generate dirSpike 0 0 1 1 4 zeroCell).2 0 1 = 459 / 2048 := by
    rw [generate_cell_eq dirSpike 0 0 1 1 4 zeroCell h20, hp0]
    rw [show ((1 : ℤ) - 1).toNat = 0 from rfl, octLoop_zero]
    exact hF1
  rw [hLHS, octaveContribution, show ((2 : ℤ) - 1) = 1 from rfl, hA, hB]
  norm_num

/-- Core of the corrected skip equivalence: inside a full run from origin
(X, Y), the octaves composited by loop iterations j+1 .. j+1+K equal, up to
the amplitude factor (1/2)^(j+1), the buffer produced by the skipped run
that starts directly at origin (2^(j+1) X, 2^(j+1) Y) with granularity
n / 2^(j+1) and subcell count 2^(j+1). -/
lemma skip_octaves_core (dir : ℤ → ℤ → ℚ × ℚ) (X Y : ℤ) (j K : ℕ) (n : ℕ)
    (h2 : 2 ≤ n / 2 ^ (j + 1)) (a b : ℕ) :
    (octLoop dir (j + (1 + K))
        { x := X, y := Y, n := n, r := 1, scale := 1,
          cell := firstOctaveI dir X Y n 1 1 zeroCell }).cell a b -
      (octLoop dir j
        { x := X, y := Y, n := n, r := 1, scale := 1,
          cell := firstOctaveI dir X Y n 1 1 zeroCell }).cell a b =
    (1 / 2 : ℚ) ^ (j + 1) *
      (octLoop dir K
        { x := (2 ^ (j + 1) : ℤ) * X, y := (2 ^ (j + 1) : ℤ) * Y,
          n := n / 2 ^ (j + 1), r := 2 ^ (j + 1), scale := 1,
          cell := firstOctaveI dir ((2 ^ (j + 1) : ℤ) * X) ((2 ^ (j + 1) : ℤ) * Y)
            (n / 2 ^ (j + 1)) (2 ^ (j + 1)) (2 ^ (j + 1)) zeroCell }).cell a b := by
  have hmono : n / 2 ^ (j + 1) ≤ n / 2 ^ j :=
    Nat.div_le_div_left (Nat.pow_le_pow_right (by norm_num) (Nat.le_succ j))
      (Nat.pos_pow_of_pos j (by norm_num))
  have h2j : 2 ≤ n / 2 ^ j := le_trans h2 hmono
  rw [octLoop_split dir j (1 + K)]
  have hrun := octLoop_run dir j X Y n 1 1 (firstOctaveI dir X Y n 1 1 zeroCell) h2j
  have hSlit : octLoop dir j
      { x := X, y := Y, n := n, r := 1, scale := 1,
        cell := firstOctaveI dir X Y n 1 1 zeroCell } =
      { x := (2 ^ j : ℤ) * X, y := (2 ^ j : ℤ) * Y, n := n / 2 ^ j, r := 2 ^ j * 1,
        scale := 1 * (1 / 2 : ℚ) ^ j,
        cell := (octLoop dir j
          { x := X, y := Y, n := n, r := 1, scale := 1,
            cell := firstOctaveI dir X Y n 1 1 zeroCell }).cell } :=
    St.ext hrun.1 hrun.2.1 hrun.2.2.1 hrun.2.2.2.1 hrun.2.2.2.2 rfl
  rw [hSlit, octLoop_delta]
  dsimp only
  rw [show 1 + K = K + 1 from Nat.add_comm 1 K, octLoop_succ]
  rw [if_pos (show 2 ≤ (St.mk ((2 ^ j : ℤ) * X) ((2 ^ j : ℤ) * Y) (n / 2 ^ j) (2 ^ j * 1) 1
    (fun _ _ => 0)).n from h2j)]
  simp only [octBody]
  rw [show ((2 ^ j : ℤ) * X + (2 ^ j : ℤ) * X) = (2 ^ (j + 1) : ℤ) * X by rw [pow_succ]; ring]
  rw [show ((2 ^ j : ℤ) * Y + (2 ^ j : ℤ) * Y) = (2 ^ (j + 1) : ℤ) * Y by rw [pow_succ]; ring]
  rw [show n / 2 ^ j / 2 = n / 2 ^ (j + 1) by rw [Nat.div_div_eq_div_mul, pow_succ]]
  rw [show 2 ^ j * 1 + 2 ^ j * 1 = 2 ^ (j + 1) by rw [pow_succ]; ring]
  rw [octLoop_delta]
  rw [octLoop_delta dir K ((2 ^ (j + 1) : ℤ) * X) ((2 ^ (j + 1) : ℤ) * Y) (n / 2 ^ (j + 1))
    (2 ^ (j + 1)) 1 (firstOctaveI dir ((2 ^ (j + 1) : ℤ) * X) ((2 ^ (j + 1) : ℤ) * Y)
      (n / 2 ^ (j + 1)) (2 ^ (j + 1)) (2 ^ (j + 1)) zeroCell) a b]
  rw [octLoop_delta dir K ((2 ^ (j + 1) : ℤ) * X) ((2 ^ (j + 1) : ℤ) * Y) (n / 2 ^ (j + 1))
    (2 ^ (j + 1)) (1 * (1 / 2)) (addOctaveI dir ((2 ^ (j + 1) : ℤ) * X)
      ((2 ^ (j + 1) : ℤ) * Y) (n / 2 ^ (j + 1)) (1 * (1 / 2)) (2 ^ (j + 1)) (2 ^ (j + 1))
      (fun _ _ => 0)) a b]
  have hCF : addOctaveI dir ((2 ^ (j + 1) : ℤ) * X) ((2 ^ (j + 1) : ℤ) * Y)
      (n / 2 ^ (j + 1)) (1 * (1 / 2 : ℚ)) (2 ^ (j + 1)) (2 ^ (j + 1)) (fun _ _ => 0) a b =
      (1 / 2 : ℚ) * firstOctaveI dir ((2 ^ (j + 1) : ℤ) * X) ((2 ^ (j + 1) : ℤ) * Y)
        (n / 2 ^ (j + 1)) (2 ^ (j + 1)) (2 ^ (j + 1)) zeroCell a b := by
    rw [addOctaveI_apply, firstOctaveI_apply]
    by_cases hreg : a < 2 ^ (j + 1) * (n / 2 ^ (j + 1)) ∧ b < 2 ^ (j + 1) * (n / 2 ^ (j + 1))
    · rw [if_pos hreg, if_pos hreg]
      ring
    · rw [if_neg hreg, if_neg hreg]
      norm_num [zeroCell]
  rw [hCF]
  ring

/-- C2 (amended): the skip phase does not double the origin, and the first
generated octave of a skipped run is written at full amplitude, so the
correct equivalence carries an origin adjustment and a uniform amplitude
factor: for m0 > 1 and a non-degenerate range, starting from the zero buffer,
generate(2^(m0-1) X, 2^(m0-1) Y, m0, m1, n, 0) equals 2^(m0-1) times the
contribution of octaves m0..m1 inside generate(X, Y, 1, m1, n, 0) — in
particular the remaining octaves have the same corner hashes and composited
shape, rescaled by 2^(m0-1), and differ only by the omitted lower octaves. -/
theorem generate_skip_equivalence (dir : ℤ → ℤ → ℚ × ℚ) (X Y : ℤ) (m0 m1 : ℤ)
    (n : ℕ) (hm0 : 2 ≤ m0) (hm1 : m0 ≤ m1)
    (h2 : 2 ≤ n / 2 ^ (m0 - 1).toNat) (a b : ℕ) :
    (generate dir ((2 ^ (m0 - 1).toNat : ℤ) * X) ((2 ^ (m0 - 1).toNat : ℤ) * Y)
        m0 m1 n zeroCell).2 a b =
      (2 ^ (m0 - 1).toNat : ℚ) * octaveContribution dir X Y m0 m1 n a b := by
  obtain ⟨j, hj⟩ : ∃ j : ℕ, (m0 - 1).toNat = j + 1 := ⟨(m0 - 2).toNat, by omega⟩
  have h2' : 2 ≤ n / 2 ^ (j + 1) := by rw [← hj]; exact h2
  have hn2 : 2 ≤ n := le_trans h2' (Nat.div_le_self _ _)
  have hskip : 2 ≤ (skipLoop (m0 - 1).toNat (n, 1)).1 := by
    rw [skipLoop_eq]
    exact h2
  have hone : 2 ≤ (skipLoop ((1 : ℤ) - 1).toNat (n, 1)).1 := hn2
  rw [octaveContribution]
  rw [generate_cell_eq dir ((2 ^ (m0 - 1).toNat : ℤ) * X) ((2 ^ (m0 - 1).toNat : ℤ) * Y)
    m0 m1 n zeroCell hskip]
  rw [generate_cell_eq dir X Y 1 m1 n zeroCell hone]
  rw [generate_cell_eq dir X Y 1 (m0 - 1) n zeroCell hone]
  rw [skipLoop_eq ((m0 - 1).toNat) n 1]
  rw [show ((1 : ℤ) - 1).toNat = 0 from rfl]
  rw [show skipLoop 0 (n, 1) = (n, 1) from rfl]
  rw [show (m1 - 1).toNat = j + (1 + (m1 - m0).toNat) from by omega]
  rw [show (m0 - 1 - 1).toNat = j from by omega]
  rw [hj]
  dsimp only
  rw [Nat.one_mul]
  rw [skip_octaves_core dir X Y j (m1 - m0).toNat n h2' a b]
  rw [← mul_assoc]
  have hpow : ((2 : ℚ)) ^ (j + 1) * ((1 / 2 : ℚ)) ^ (j + 1) = 1 := by
    rw [← mul_pow]
    norm_num
  rw [hpow, one_mul]

/-- Witness for C2 (amended) at origin (0, 0), m0 = 2, m1 = 2, n = 4: the
skipped run holds exactly twice the octave-2 contribution of the full run. -/
theorem generate_skip_equivalence_witness :
    (generate dirSpike ((2 ^ ((2 : ℤ) - 1).toNat : ℤ) * 0)
        ((2 ^ ((2 : ℤ) - 1).toNat : ℤ) * 0) 2 2 4 zeroCell).2 0 1 =
      (2 ^ ((2 : ℤ) - 1).toNat : ℚ) * octaveContribution dirSpike 0 0 2 2 4 0 1 :=
  generate_skip_equivalence dirSpike 0 0 2 2 4 (by norm_num) (by norm_num)
    (by decide) 0 1

end AmortizedNoise
